import Mathlib

/-!
Verification development for the "LRD Image Creator Pro" batch image labeler
(sources: corel.py and corel_text_pro.py).  The Python functions are shallowly
embedded as executable Lean definitions: Python ints become Lean Int, Python
floats are modelled by exact rationals (the code only performs a handful of
divisions and one rounding per dimension, and every claim below is settled at
inputs where float and exact arithmetic agree), raised exceptions become
Option failures, and PIL images become a record of dimensions plus a total
pixel function.
-/

namespace ImageCreator

/-! ## Filename sanitization (corel.py line 10, corel_text_pro.py line 27) -/

/-- The characters removed by sanitize_filename.  The Python raw string
r'\\/:*?"<>|' denotes the character sequence backslash, backslash, slash,
colon, star, question mark, double quote, less-than, greater-than, pipe;
as a membership test the duplicated backslash is one character. -/
def badChars : List Char := ['\\', '/', ':', '*', '?', '"', '<', '>', '|']

/-- Embeds sanitize_filename: keep exactly the characters not in badChars,
in their original order. -/
def sanitize_filename (s : String) : String :=
  String.mk (s.data.filter (fun c => !(badChars.contains c)))

/-! ## Measurement converter (corel.py line 16, corel_text_pro.py line 49) -/

/-- Embeds inches_from_unit.  Python float division is modelled by exact
rational division; 2.54 and 25.4 are the literal constants of the source. -/
def inches_from_unit (value : ℚ) (unit : String) : ℚ :=
  if unit = "inches" then value
  else if unit = "cm" then value / 2.54
  else if unit = "mm" then value / 25.4
  else value

/-! ## Python primitives used by the embedding -/

/-- Python round(): round half to even (banker's rounding), as used for
float-to-int conversion of pixel sizes. -/
def pyRound (q : ℚ) : ℤ :=
  let f : ℤ := q.floor
  let frac : ℚ := q - f
  if frac < 1/2 then f
  else if 1/2 < frac then f + 1
  else if f % 2 = 0 then f else f + 1

/-- Python floor division (the // operator). -/
def pyFloorDiv (a b : ℤ) : ℤ := Int.fdiv a b

/-- Length of Python range(a, b, s): the standard closed form, zero when the
range is empty or the step points away from the bound.  (The sources only ever
call range with a nonzero step.) -/
def pyRangeLen (a b s : ℤ) : ℕ :=
  if 0 < s ∧ a < b then (b - a - 1).toNat / s.toNat + 1
  else if s < 0 ∧ b < a then (a - b - 1).toNat / (-s).toNat + 1
  else 0

/-- Python list(range(a, b, s)): the arithmetic progression a, a+s, a+2s, ... -/
def pyRange (a b s : ℤ) : List ℤ :=
  (List.range (pyRangeLen a b s)).map (fun i : ℕ => a + s * (i : ℤ))

/-- Python str.strip: drop leading and trailing whitespace characters. -/
def pyStrip (l : List Char) : List Char :=
  ((l.dropWhile Char.isWhitespace).reverse.dropWhile Char.isWhitespace).reverse

/-- Python str.split(sep) for a one-character separator: keeps empty pieces,
and the empty string splits to one empty piece. -/
def splitChar (sep : Char) : List Char → List (List Char)
  | [] => [[]]
  | c :: rest =>
    let r := splitChar sep rest
    if c = sep then [] :: r
    else
      match r with
      | [] => [[c]]
      | h :: t => (c :: h) :: t

/-- Value of a nonempty all-digit character list, Python int() style;
none when empty or a non-digit appears.  (Python also allows underscore
separators between digits; no claim depends on them.) -/
def digitsVal : List Char → Option ℕ
  | [] => none
  | [c] => if c.isDigit then some (c.toNat - '0'.toNat) else none
  | c :: rest =>
    match digitsVal rest, c.isDigit with
    | some n, true =>
      some ((c.toNat - '0'.toNat) * 10 ^ rest.length + n)
    | _, _ => none

/-- Python int(s) on a string: strip whitespace, optional sign, digits;
none models a raised ValueError. -/
def parseIntPy (s : List Char) : Option ℤ :=
  match pyStrip s with
  | '-' :: rest => (digitsVal rest).map (fun n => -(n : ℤ))
  | '+' :: rest => (digitsVal rest).map (fun n => (n : ℤ))
  | l => (digitsVal l).map (fun n => (n : ℤ))

/-! ## Batch Sequencer: parse_ranges (corel.py lines 22-41) -/

/-- The step of parse_ranges that rewrites x to a colon when the token
contains a colon or an x (corel.py lines 27-28). -/
def xReplace (p0 : List Char) : List Char :=
  if p0.contains ':' ∨ p0.contains 'x' then
    p0.map (fun c => if c = 'x' then ':' else c)
  else p0

/-- Expansion of one comma-separated token of the ranges grammar
(corel.py lines 26-37).  A none result models an uncaught Python exception:
the range branch unpacks rng.split("-") into exactly two names and calls
int() outside any try, so a malformed range token raises a ValueError out of
parse_ranges; only the bare-integer branch is wrapped in try/except
(silent skip, contributing nothing). -/
def expandToken (p0 : List Char) : Option (List ℤ) :=
  let p := xReplace p0
  if p.contains '-' then
    match (splitChar ':' p ++ [['1']]).take 2 with
    | [rng, st] =>
      (match splitChar '-' rng with
       | [a0, b0] =>
         (match parseIntPy a0, parseIntPy b0, parseIntPy st with
          | some a, some b, some s0 =>
            let s := max 1 s0
            some (if a ≤ b then pyRange a (b + 1) s else pyRange a (b - 1) (-s))
          | _, _, _ => none)
       | _ => none)
    | _ => none
  else
    match parseIntPy p with
    | some v => some [v]
    | none => some []

/-- The de-duplication loop of parse_ranges (corel.py lines 38-40): a seen
set and an output list, keeping each value's first occurrence. -/
def dedupGo : List ℤ → List ℤ → List ℤ
  | _, [] => []
  | seen, v :: rest =>
    if v ∈ seen then dedupGo seen rest else v :: dedupGo (v :: seen) rest

/-- De-duplicate keeping first occurrences, starting from an empty seen set. -/
def dedupFirstSeen (l : List ℤ) : List ℤ := dedupGo [] l

/-- Tokenization of a ranges spec: replace semicolons by commas, split on
commas, strip each piece, drop empty pieces (corel.py line 25). -/
def tokensOf (spec : String) : List (List Char) :=
  ((splitChar ',' (spec.data.map (fun c => if c = ';' then ',' else c))).map
    pyStrip).filter (fun t => !t.isEmpty)

/-- The expanded token stream vals of parse_ranges before de-duplication:
per-token expansions concatenated in order; none models a raised exception. -/
def expandedVals (spec : String) : Option (List ℤ) :=
  if (pyStrip spec.data).isEmpty then some []
  else ((tokensOf spec).mapM expandToken).map List.flatten

/-- Embeds parse_ranges (corel.py lines 22-41): expand, then de-duplicate
preserving first-seen order.  none models a raised exception. -/
def parse_ranges (spec : String) : Option (List ℤ) :=
  (expandedVals spec).map dedupFirstSeen

/-! ## Batch Sequencer: simple mode (corel.py lines 70-73,
corel_text_pro.py lines 177-180) -/

/-- The simple-mode arithmetic sequence: ascending when start is at most
stop, descending otherwise.  The worker constructor coerces the step with
max(1, step) before these lines run; the coercion is applied here. -/
def simpleSeq (start stop step : ℤ) : List ℤ :=
  let s := max 1 step
  if start ≤ stop then pyRange start (stop + 1) s
  else pyRange start (stop - 1) (-s)

/-- The worker's value list (corel.py lines 70-73): the parsed ranges when
nonempty, else the simple-mode sequence. -/
def countValuesOf (ranges : List ℤ) (start stop step : ℤ) : List ℤ :=
  if !ranges.isEmpty then ranges else simpleSeq start stop step

/-! ## Text Fit Engine: shrink loop (corel.py lines 89-97,
corel_text_pro.py lines 221-243) -/

/-- The available rectangle inside the canvas after the four paddings
(corel.py line 90): x1 - x0 = (target - padRight) - padLeft, floored at 1,
and likewise vertically. -/
def availRect (targetW targetH pl pr pt pb : ℤ) : ℤ × ℤ :=
  (max 1 (targetW - pr - pl), max 1 (targetH - pb - pt))

/-- The while loop of the shrink pass (corel.py lines 93-97): while the
measured box exceeds the available rectangle in either axis and the current
point size is above 6, decrement the size by 2 and re-measure.  The
measurement function abstracts draw.textbbox for the fixed text: it maps a
point size to the measured (width, height). -/
def shrinkLoop (meas : ℤ → ℤ × ℤ) (aw ah : ℤ) (cur tw th : ℤ) : ℤ × ℤ × ℤ :=
  if (aw < tw ∨ ah < th) ∧ 6 < cur then
    shrinkLoop meas aw ah (cur - 2) (meas (cur - 2)).1 (meas (cur - 2)).2
  else (cur, tw, th)
termination_by (cur - 6).toNat
decreasing_by omega

/-- The full fit step (corel.py lines 89-97): measure at the starting size;
when oversized and the font is scalable (a FreeType font), run the shrink
loop; otherwise keep the measurement.  Returns (final size, width, height). -/
def fitFontSize (scalable : Bool) (meas : ℤ → ℤ × ℤ) (aw ah fs : ℤ) :
    ℤ × ℤ × ℤ :=
  let tw := (meas fs).1
  let th := (meas fs).2
  if (aw < tw ∨ ah < th) ∧ scalable then shrinkLoop meas aw ah fs tw th
  else (fs, tw, th)

/-! ## Target canvas size and auto-fit (corel_text_pro.py lines 152-169) -/

/-- One clamped pixel dimension (corel_text_pro.py lines 152-155):
max(1, round(inches * dpi)) with dpi itself clamped to at least 1 in the
worker constructor. -/
def clampedPx (v : ℚ) (unit : String) (dpi : ℤ) : ℤ :=
  max 1 (pyRound (inches_from_unit v unit * (max 1 dpi : ℤ)))

/-- Embeds the target-size computation with the auto-fit substitution
(corel_text_pro.py lines 152-169): when either clamped dimension is at
most 1, both are replaced by the background's native pixel dimensions. -/
def targetSize (w h : ℚ) (unit : String) (dpi : ℤ) (bgW bgH : ℤ) : ℤ × ℤ :=
  let tw := clampedPx w unit dpi
  let th := clampedPx h unit dpi
  if tw ≤ 1 ∨ th ≤ 1 then (bgW, bgH) else (tw, th)

/-! ## Image model and Background Fitter cover branch (corel.py lines 78-85,
corel_text_pro.py lines 193-211) -/

/-- An RGBA pixel as (r, g, b, a). -/
def Pixel : Type := ℤ × ℤ × ℤ × ℤ

/-- Alpha channel of a pixel. -/
def Pixel.alpha (p : Pixel) : ℤ := p.2.2.2

/-- A raster image: pixel dimensions plus a total pixel function.
Coordinates are integers so that out-of-bounds crop reads are expressible. -/
structure Img where
  w : ℤ
  h : ℤ
  px : ℤ → ℤ → Pixel

/-- PIL Image.new("RGBA", (w, h), (255, 255, 255, 255)): an opaque white
canvas. -/
def newCanvas (w h : ℤ) : Img :=
  ⟨w, h, fun _ _ => (255, 255, 255, 255)⟩

/-- PIL Image.resize((w, h), LANCZOS), modelled at the level the claims
need: the output has exactly the requested dimensions and each output pixel
is sampled from the source (dimension-exact; a constant source region stays
constant, which is all any resampling kernel with unit weight sum
guarantees and all the proofs below use). -/
def resizeImg (img : Img) (w h : ℤ) : Img :=
  ⟨w, h, fun x y => img.px (x * img.w / w) (y * img.h / h)⟩

/-- PIL Image.crop((l, t, r, b)): dimensions (r - l, b - t); reads outside
the source bounds yield transparent black, as PIL pads crops with zeros. -/
def cropImg (img : Img) (l t r b : ℤ) : Img :=
  ⟨r - l, b - t, fun x y =>
    if 0 ≤ l + x ∧ l + x < img.w ∧ 0 ≤ t + y ∧ t + y < img.h then
      img.px (l + x) (t + y)
    else (0, 0, 0, 0)⟩

/-- PIL Image.paste(img, (x0, y0)) with no mask: inside the pasted region
the source pixel (including its alpha channel) replaces the canvas pixel
as-is; outside it the canvas is unchanged. -/
def pasteAt (canvas img : Img) (x0 y0 : ℤ) : Img :=
  ⟨canvas.w, canvas.h, fun x y =>
    if x0 ≤ x ∧ x < x0 + img.w ∧ y0 ≤ y ∧ y < y0 + img.h then
      img.px (x - x0) (y - y0)
    else canvas.px x y⟩

/-- The scaled dimensions chosen by the cover branch (corel.py lines 80-82):
if the background aspect ratio exceeds the target aspect ratio, match the
height and overflow the width, else match the width and overflow the height.
The float ratio comparison and the float products are modelled by exact
rational arithmetic. -/
def coverScaleDims (bgW bgH tw th : ℤ) : ℤ × ℤ :=
  if (bgW : ℚ) / (bgH : ℚ) > (tw : ℚ) / (th : ℚ) then
    (pyRound ((bgW : ℚ) * ((th : ℚ) / (bgH : ℚ))), th)
  else
    (tw, pyRound ((bgH : ℚ) * ((tw : ℚ) / (bgW : ℚ))))

/-- Embeds the cover branch (corel.py lines 78-85): fresh white canvas,
aspect-preserving resize to at least the target in both axes, symmetric
center crop with floor-divided offsets, then a mask-less paste at (0, 0). -/
def coverFit (bg : Img) (tw th : ℤ) : Img :=
  let canvas := newCanvas tw th
  let sd := coverScaleDims bg.w bg.h tw th
  let r := resizeImg bg sd.1 sd.2
  let left := pyFloorDiv (r.w - tw) 2
  let top := pyFloorDiv (r.h - th) 2
  let c := cropImg r left top (left + tw) (top + th)
  pasteAt canvas c 0 0

/-! ## Render Pipeline: filenames, saving, cancellation, manifest
(corel.py lines 75-130, corel_text_pro.py lines 186-311) -/

/-- The output filename of one value (corel.py line 110): the sanitized base
name, an underscore, the value, a dot, the extension. -/
def outName (base : String) (val : ℤ) (ext : String) : String :=
  sanitize_filename base ++ "_" ++ toString val ++ "." ++ ext

/-- The full output path (corel.py line 111): os.path.join is modelled as
folder/name; the whole name is passed through sanitize_filename again. -/
def outPath (folder base : String) (val : ℤ) (ext : String) : String :=
  folder ++ "/" ++ sanitize_filename (outName base val ext)

/-- The corel_text_pro.py variant of the filename (lines 271-273): the value
is an arbitrary string and is itself sanitized before composition. -/
def outNamePro (base val ext : String) : String :=
  sanitize_filename base ++ "_" ++ sanitize_filename val ++ "." ++ ext

/-- The corel_text_pro.py full output path (line 273). -/
def outPathPro (folder base val ext : String) : String :=
  folder ++ "/" ++ sanitize_filename (outNamePro base val ext)

/-- Terminal signal of a worker run: exactly one of done (corel.py line 130)
or error (line 116) is emitted last. -/
inductive Terminal
  | done : Terminal
  | error : Terminal
deriving DecidableEq

/-- Observable outcome of one worker run: the files written in render order,
the manifest contents (none when no manifest file is written), and the
terminal signal. -/
structure RunResult where
  files : List String
  manifest : Option (List (ℤ × String))
  terminal : Terminal

/-- Whether the cooperative stop flag reads true at the boundary check before
starting the value at 0-based position i (corel.py line 76).  The flag is set
once by request_stop and never cleared, so it is modelled by the first
position at which it is visible: some n means the flag reads true exactly
from position n on; none means it is never set. -/
def stopObserved (stopAt : Option ℕ) (i : ℕ) : Bool :=
  match stopAt with
  | none => false
  | some n => decide (n ≤ i)

/-- The per-value loop (corel.py lines 75-120), abstracted over rendering:
saveOk i says whether saving the i-th value's file succeeds, fname composes
the path written for a value.  Returns the final processed counter, the
paths written in order, and whether the loop was aborted by a save failure
(the early return of line 116). -/
def runGo (saveOk : ℕ → Bool) (stopAt : Option ℕ) (fname : ℤ → String) :
    ℕ → List ℤ → ℕ × List String × Bool
  | processed, [] => (processed, [], false)
  | processed, v :: rest =>
    if stopObserved stopAt processed then (processed, [], false)
    else if saveOk processed then
      let r := runGo saveOk stopAt fname (processed + 1) rest
      (r.1, fname v :: r.2.1, r.2.2)
    else (processed, [], true)

/-- The worker run after setup (corel.py lines 74-130): run the loop; a save
failure has already emitted error and returned before the manifest block, so
no manifest exists in that case; otherwise manifest rows are built from
count_values[:processed], the manifest is written only when the row list is
nonempty, and the done signal is emitted — whether the loop completed or was
stopped. -/
def workerRun (folder base ext : String) (saveOk : ℕ → Bool)
    (stopAt : Option ℕ) (values : List ℤ) : RunResult :=
  let r := runGo saveOk stopAt (fun v => outPath folder base v ext) 0 values
  if r.2.2 then ⟨r.2.1, none, Terminal.error⟩
  else
    let rows := (values.take r.1).map (fun v => (v, outName base v ext))
    ⟨r.2.1, if rows.isEmpty then none else some rows, Terminal.done⟩

/-- Position of the first occurrence of x in a list (length of the list when
absent); used to state the first-seen-order property of parse_ranges. -/
def firstIdx (x : ℤ) : List ℤ → ℕ
  | [] => 0
  | a :: t => if a = x then 0 else firstIdx x t + 1

/-! ## Helper lemmas -/

theorem ratFloor_eq_intFloor (q : ℚ) : q.floor = ⌊q⌋ := by
  rw [Rat.floor_def', Rat.floor_def]

theorem floor_le_pyRound (q : ℚ) : ⌊q⌋ ≤ pyRound q := by
  simp only [pyRound, ratFloor_eq_intFloor]
  split
  · exact le_refl _
  · split
    · omega
    · split <;> omega

theorem le_pyRound (n : ℤ) (q : ℚ) (h : (n : ℚ) ≤ q) : n ≤ pyRound q :=
  le_trans (Int.le_floor.mpr h) (floor_le_pyRound q)

theorem mem_pyRange_pos {a b s v : ℤ} (hs : 0 < s) (hv : v ∈ pyRange a b s) :
    a ≤ v ∧ v < b := by
  simp only [pyRange, List.mem_map, List.mem_range] at hv
  obtain ⟨i, hi, rfl⟩ := hv
  rw [pyRangeLen] at hi
  by_cases hab : a < b
  · rw [if_pos ⟨hs, hab⟩] at hi
    have hi' : i ≤ (b - a - 1).toNat / s.toNat := by omega
    have hst : 0 < s.toNat := by omega
    have h2 : i * s.toNat ≤ (b - a - 1).toNat :=
      (Nat.le_div_iff_mul_le hst).mp hi'
    have h3 : (i : ℤ) * s ≤ b - a - 1 := by
      have h4 : ((i * s.toNat : ℕ) : ℤ) ≤ (((b - a - 1).toNat : ℕ) : ℤ) :=
        Int.ofNat_le.mpr h2
      push_cast at h4
      rw [Int.toNat_of_nonneg (by omega : (0:ℤ) ≤ s),
        Int.toNat_of_nonneg (by omega : (0:ℤ) ≤ b - a - 1)] at h4
      exact h4
    have h5 : 0 ≤ (i : ℤ) * s := mul_nonneg (by positivity) (by omega)
    constructor <;> [nlinarith; nlinarith]
  · rw [if_neg (by tauto), if_neg (by omega)] at hi
    omega

theorem mem_pyRange_neg {a b s v : ℤ} (hs : s < 0) (hv : v ∈ pyRange a b s) :
    b < v ∧ v ≤ a := by
  simp only [pyRange, List.mem_map, List.mem_range] at hv
  obtain ⟨i, hi, rfl⟩ := hv
  rw [pyRangeLen] at hi
  by_cases hab : b < a
  · rw [if_neg (by omega), if_pos ⟨hs, hab⟩] at hi
    have hi' : i ≤ (a - b - 1).toNat / (-s).toNat := by omega
    have hst : 0 < (-s).toNat := by omega
    have h2 : i * (-s).toNat ≤ (a - b - 1).toNat :=
      (Nat.le_div_iff_mul_le hst).mp hi'
    have h3 : (i : ℤ) * (-s) ≤ a - b - 1 := by
      have h4 : ((i * (-s).toNat : ℕ) : ℤ) ≤ (((a - b - 1).toNat : ℕ) : ℤ) :=
        Int.ofNat_le.mpr h2
      push_cast at h4
      rw [Int.toNat_of_nonneg (by omega : (0:ℤ) ≤ -s),
        Int.toNat_of_nonneg (by omega : (0:ℤ) ≤ a - b - 1)] at h4
      exact h4
    have h5 : 0 ≤ (i : ℤ) * (-s) := mul_nonneg (by positivity) (by omega)
    constructor <;> nlinarith
  · rw [if_neg (by omega), if_neg (by tauto)] at hi
    omega

theorem shrinkLoop_exit (meas : ℤ → ℤ × ℤ) (aw ah cur tw th : ℤ) :
    ((shrinkLoop meas aw ah cur tw th).2.1 ≤ aw ∧
     (shrinkLoop meas aw ah cur tw th).2.2 ≤ ah) ∨
    (shrinkLoop meas aw ah cur tw th).1 ≤ 6 := by
  rw [shrinkLoop]
  split
  · exact shrinkLoop_exit meas aw ah (cur - 2) _ _
  · rename_i h
    rcases not_and_or.mp h with h1 | h2
    · push_neg at h1
      exact Or.inl ⟨h1.1, h1.2⟩
    · exact Or.inr (by omega)
termination_by (cur - 6).toNat
decreasing_by omega

/-! ## Claim theorems -/

/-- C1: Text Fit Engine shrink loop.  For every measurement function (the
text and font abstracted as the map from point size to measured bounding
box), every available rectangle and every starting size, with a scalable
font: when oversized and above size 6 the loop decrements by exactly 2 and
re-measures (second conjunct), and on exit either the final measured box
fits the available rectangle or the size has crossed the floor of 6
(first conjunct; the guard is size > 6, so an odd starting size can exit
at 5, which is the reading the claim's own loop description forces). -/
theorem text_fit_shrink_spec (meas : ℤ → ℤ × ℤ) (aw ah fs : ℤ) :
    (((fitFontSize true meas aw ah fs).2.1 ≤ aw ∧
      (fitFontSize true meas aw ah fs).2.2 ≤ ah) ∨
     (fitFontSize true meas aw ah fs).1 ≤ 6) ∧
    (∀ cur tw th : ℤ, (aw < tw ∨ ah < th) → 6 < cur →
      shrinkLoop meas aw ah cur tw th =
        shrinkLoop meas aw ah (cur - 2) (meas (cur - 2)).1 (meas (cur - 2)).2) := by
  constructor
  · simp only [fitFontSize]
    split
    · exact shrinkLoop_exit meas aw ah fs (meas fs).1 (meas fs).2
    · rename_i h
      rcases not_and_or.mp h with h1 | h2
      · push_neg at h1
        exact Or.inl ⟨h1.1, h1.2⟩
      · simp at h2
  · intro cur tw th h1 h2
    conv_lhs => rw [shrinkLoop]
    rw [if_pos (⟨h1, h2⟩ : (aw < tw ∨ ah < th) ∧ 6 < cur)]

/-- Witness for C1 at the spec's concrete scenario: available rectangle
(200, 50), measured box (400, 40), starting size 48. -/
theorem text_fit_shrink_spec_witness :
    (((200:ℤ) < 400 ∨ (50:ℤ) < 40) ∧ (6:ℤ) < 48) ∧
    shrinkLoop (fun _ => (400, 40)) 200 50 48 400 40 =
      shrinkLoop (fun _ => (400, 40)) 200 50 46 400 40 :=
  ⟨⟨Or.inl (by norm_num), by norm_num⟩,
   (text_fit_shrink_spec (fun _ => (400, 40)) 200 50 48).2 48 400 40
     (Or.inl (by norm_num)) (by norm_num)⟩

/-- C7: Batch Sequencer simple mode.  The two concrete sequences of the
claim, plus the never-overshooting bounds for every start, stop and step. -/
theorem simple_mode_sequence :
    simpleSeq 1 10 1 = [1, 2, 3, 4, 5, 6, 7, 8, 9, 10] ∧
    simpleSeq 10 1 2 = [10, 8, 6, 4, 2] ∧
    ∀ start stop step : ℤ, ∀ v ∈ simpleSeq start stop step,
      (start ≤ stop → start ≤ v ∧ v ≤ stop) ∧
      (stop < start → stop ≤ v ∧ v ≤ start) := by
  refine ⟨by decide, by decide, ?_⟩
  intro a b s v hv
  simp only [simpleSeq] at hv
  by_cases hab : a ≤ b
  · rw [if_pos hab] at hv
    have hb := mem_pyRange_pos (by omega : (0:ℤ) < max 1 s) hv
    exact ⟨fun _ => ⟨hb.1, by omega⟩, fun hc => absurd hab (by omega)⟩
  · rw [if_neg hab] at hv
    have hb := mem_pyRange_neg (by omega : -(max 1 s) < 0) hv
    exact ⟨fun hc => absurd hc (by omega), fun _ => ⟨by omega, hb.2⟩⟩

/-- Witness for C7: the value 8 of the descending example lies between the
bounds. -/
theorem simple_mode_sequence_witness :
    ((8:ℤ) ∈ simpleSeq 10 1 2 ∧ (1:ℤ) < 10) ∧ ((1:ℤ) ≤ 8 ∧ (8:ℤ) ≤ 10) :=
  ⟨⟨by decide, by decide⟩,
   (simple_mode_sequence.2.2 10 1 2 8 (by decide)).2 (by decide)⟩

/-- C8: Measurement Converter.  Identity for inches, division by 2.54 for
cm, by 25.4 for mm, passthrough for any other unit string (the function is
total, so it never raises), and the cm round-trip; in this exact-rational
model the round-trip is exact, hence within any floating tolerance, and it
holds for every value, not only nonnegative ones. -/
theorem inches_from_unit_spec (x : ℚ) :
    inches_from_unit x "inches" = x ∧
    inches_from_unit x "cm" = x / 2.54 ∧
    inches_from_unit x "mm" = x / 25.4 ∧
    (∀ unit : String, unit ≠ "inches" → unit ≠ "cm" → unit ≠ "mm" →
      inches_from_unit x unit = x) ∧
    inches_from_unit x "cm" * 2.54 = x := by
  refine ⟨rfl, rfl, rfl, ?_, ?_⟩
  · intro u h1 h2 h3
    rw [inches_from_unit, if_neg h1, if_neg h2, if_neg h3]
  · show x / 2.54 * 2.54 = x
    exact div_mul_cancel₀ x (by norm_num)

/-- Witness for C8 at value 3 and the unrecognized unit string pt. -/
theorem inches_from_unit_spec_witness :
    (("pt" : String) ≠ "inches" ∧ ("pt" : String) ≠ "cm" ∧
      ("pt" : String) ≠ "mm") ∧
    inches_from_unit 3 "pt" = 3 :=
  ⟨⟨by decide, by decide, by decide⟩,
   (inches_from_unit_spec 3).2.2.2.1 "pt" (by decide) (by decide) (by decide)⟩

theorem mem_sanitize (s : String) (c : Char) :
    c ∈ (sanitize_filename s).data ↔ c ∈ s.data ∧ c ∉ badChars := by
  simp [sanitize_filename, List.mem_filter]

/-- C9: Filename sanitization.  sanitize_filename removes exactly the nine
path-hostile characters and keeps all others in their original order
(membership characterization plus sublist, i.e. order preservation); and in
the composed output path of either variant, any path-hostile character can
only come from the folder prefix or be the path separator itself — never
from the base name, the value or the extension. -/
theorem filename_sanitization_spec :
    (∀ s : String, (∀ c : Char,
        c ∈ (sanitize_filename s).data ↔ c ∈ s.data ∧ c ∉ badChars) ∧
      List.Sublist (sanitize_filename s).data s.data) ∧
    (∀ folder base ext : String, ∀ val : ℤ,
      ∀ c ∈ (outPath folder base val ext).data,
        c ∈ badChars → c ∈ folder.data ∨ c = '/') ∧
    (∀ folder base val ext : String,
      ∀ c ∈ (outPathPro folder base val ext).data,
        c ∈ badChars → c ∈ folder.data ∨ c = '/') := by
  refine ⟨fun s => ⟨mem_sanitize s, List.filter_sublist _⟩, ?_, ?_⟩
  · intro folder base ext val c hc hbad
    rw [outPath, String.data_append, String.data_append] at hc
    rcases List.mem_append.mp hc with h1 | h2
    · rcases List.mem_append.mp h1 with h3 | h4
      · exact Or.inl h3
      · rw [show ("/" : String).data = ['/'] from rfl] at h4
        exact Or.inr (List.mem_singleton.mp h4)
    · exact absurd hbad ((mem_sanitize _ c).mp h2).2
  · intro folder base val ext c hc hbad
    rw [outPathPro, String.data_append, String.data_append] at hc
    rcases List.mem_append.mp hc with h1 | h2
    · rcases List.mem_append.mp h1 with h3 | h4
      · exact Or.inl h3
      · rw [show ("/" : String).data = ['/'] from rfl] at h4
        exact Or.inr (List.mem_singleton.mp h4)
    · exact absurd hbad ((mem_sanitize _ c).mp h2).2

/-- Witness for C9: in the path composed from folder x:, base b, value 7,
extension png, the colon is in the path and is path-hostile, and the
theorem locates it in the folder prefix. -/
theorem filename_sanitization_spec_witness :
    (':' ∈ (outPath "x:" "b" 7 "png").data ∧ ':' ∈ badChars) ∧
    (':' ∈ ("x:" : String).data ∨ ':' = '/') :=
  ⟨⟨by decide, by decide⟩,
   filename_sanitization_spec.2.1 "x:" "b" "png" 7 ':' (by decide) (by decide)⟩

/-- C4 counterexample: with width 0 inches and height 2 inches at 300 DPI,
only the width rounds (clamped) to 1, the height rounds to 600 > 1 — yet
the worker substitutes the background's native dimensions (123, 456)
(corel_text_pro.py line 166 tests with or, not and); the claim instead
demands that the explicit clamped dimensions (1, 600) be kept. -/
theorem auto_fit_counterexample :
    targetSize 0 2 "inches" 300 123 456 = (123, 456) ∧
    1 < clampedPx 2 "inches" 300 := by
  have h2 : clampedPx 2 "inches" 300 = 600 := by
    rw [clampedPx, inches_from_unit]
    norm_num
    rw [pyRound]
    simp only [ratFloor_eq_intFloor]
    norm_num
  have h0 : clampedPx 0 "inches" 300 = 1 := by
    rw [clampedPx, inches_from_unit]
    norm_num
    rw [pyRound]
    simp only [ratFloor_eq_intFloor]
    norm_num
  constructor
  · simp only [targetSize]
    rw [h0, h2]
    norm_num
  · omega

/-- C4 amended: the worker substitutes the background's native pixel
dimensions exactly when at least one of the two rounded, clamped pixel
dimensions is at most 1; only when both exceed 1 are the explicit clamped
dimensions kept. -/
theorem auto_fit_trigger (w h : ℚ) (unit : String) (dpi bgW bgH : ℤ) :
    (clampedPx w unit dpi ≤ 1 ∨ clampedPx h unit dpi ≤ 1 →
      targetSize w h unit dpi bgW bgH = (bgW, bgH)) ∧
    (1 < clampedPx w unit dpi → 1 < clampedPx h unit dpi →
      targetSize w h unit dpi bgW bgH =
        (clampedPx w unit dpi, clampedPx h unit dpi)) := by
  constructor
  · intro hc
    simp only [targetSize]
    rw [if_pos hc]
  · intro h1 h2
    simp only [targetSize]
    rw [if_neg (by omega)]

/-- Witness for C4: a zero width triggers the substitution even though the
height is 600 pixels. -/
theorem auto_fit_trigger_witness :
    (clampedPx 0 "inches" 300 ≤ 1 ∨ clampedPx 2 "inches" 300 ≤ 1) ∧
    targetSize 0 2 "inches" 300 77 88 = (77, 88) := by
  have h0 : clampedPx 0 "inches" 300 = 1 := by
    rw [clampedPx, inches_from_unit]
    norm_num
    rw [pyRound]
    simp only [ratFloor_eq_intFloor]
    norm_num
  have hc : clampedPx 0 "inches" 300 ≤ 1 ∨ clampedPx 2 "inches" 300 ≤ 1 :=
    Or.inl (by omega)
  exact ⟨hc, (auto_fit_trigger 0 2 "inches" 300 77 88).1 hc⟩

theorem mem_dedupGo (l : List ℤ) : ∀ (seen : List ℤ) (x : ℤ),
    x ∈ dedupGo seen l ↔ x ∈ l ∧ x ∉ seen := by
  induction l with
  | nil =>
    intro seen x
    simp [dedupGo]
  | cons v rest ih =>
    intro seen x
    by_cases hv : v ∈ seen
    · simp only [dedupGo, if_pos hv, ih, List.mem_cons]
      constructor
      · rintro ⟨h1, h2⟩
        exact ⟨Or.inr h1, h2⟩
      · rintro ⟨h1 | h1, h2⟩
        · exact absurd (h1 ▸ hv) h2
        · exact ⟨h1, h2⟩
    · simp only [dedupGo, if_neg hv, List.mem_cons, ih]
      by_cases hxv : x = v
      · subst hxv
        simp [hv]
      · simp [hxv]

theorem nodup_dedupGo (l : List ℤ) : ∀ seen : List ℤ, (dedupGo seen l).Nodup := by
  induction l with
  | nil =>
    intro seen
    simp [dedupGo]
  | cons v rest ih =>
    intro seen
    by_cases hv : v ∈ seen
    · simp only [dedupGo, if_pos hv]
      exact ih seen
    · simp only [dedupGo, if_neg hv]
      refine List.nodup_cons.mpr ⟨fun hmem => ?_, ih (v :: seen)⟩
      exact ((mem_dedupGo rest (v :: seen) v).mp hmem).2 (List.mem_cons_self v seen)

theorem sublist_dedupGo (l : List ℤ) : ∀ seen : List ℤ,
    List.Sublist (dedupGo seen l) l := by
  induction l with
  | nil =>
    intro seen
    simp [dedupGo]
  | cons v rest ih =>
    intro seen
    by_cases hv : v ∈ seen
    · simp only [dedupGo, if_pos hv]
      exact (ih seen).cons v
    · simp only [dedupGo, if_neg hv]
      exact (ih (v :: seen)).cons₂ v

theorem firstIdx_dedupGo (l : List ℤ) : ∀ (seen : List ℤ) (x y : ℤ),
    x ∈ dedupGo seen l → y ∈ dedupGo seen l →
    firstIdx x l < firstIdx y l →
    firstIdx x (dedupGo seen l) < firstIdx y (dedupGo seen l) := by
  induction l with
  | nil =>
    intro seen x y hx _ _
    simp [dedupGo] at hx
  | cons v rest ih =>
    intro seen x y hx hy hlt
    by_cases hv : v ∈ seen
    · simp only [dedupGo, if_pos hv] at hx hy ⊢
      have hxs := (mem_dedupGo rest seen x).mp hx
      have hys := (mem_dedupGo rest seen y).mp hy
      have hxv : x ≠ v := fun h => hxs.2 (h ▸ hv)
      have hyv : y ≠ v := fun h => hys.2 (h ▸ hv)
      simp only [firstIdx, if_neg (Ne.symm hxv), if_neg (Ne.symm hyv)] at hlt
      exact ih seen x y hx hy (by omega)
    · simp only [dedupGo, if_neg hv] at hx hy ⊢
      by_cases hxv : x = v
      · subst hxv
        have hyx : y ≠ x := by
          intro h
          subst h
          exact absurd hlt (lt_irrefl _)
        simp only [firstIdx, if_true]
        rw [if_neg (Ne.symm hyx)]
        omega
      · by_cases hyv : y = v
        · subst hyv
          rw [show firstIdx y (y :: rest) = 0 from by simp [firstIdx]] at hlt
          exact absurd hlt (Nat.not_lt_zero _)
        · have hx' : x ∈ dedupGo (v :: seen) rest := by
            rcases List.mem_cons.mp hx with h | h
            · exact absurd h hxv
            · exact h
          have hy' : y ∈ dedupGo (v :: seen) rest := by
            rcases List.mem_cons.mp hy with h | h
            · exact absurd h hyv
            · exact h
          have hlt' : firstIdx x rest < firstIdx y rest := by
            simp only [firstIdx, if_neg (Ne.symm hxv), if_neg (Ne.symm hyv)] at hlt
            omega
          have hrec := ih (v :: seen) x y hx' hy' hlt'
          simp only [firstIdx, if_neg (Ne.symm hxv), if_neg (Ne.symm hyv)]
          omega

/-- C2: the ranges-grammar example expands to exactly the claimed list, and
for every input whose expansion does not raise, the result is the expanded
value stream de-duplicated: no duplicates, a sublist of the stream (hence
relative order preserved), the same membership, and elements ordered by the
position of their first occurrence in the stream. -/
theorem parse_ranges_spec :
    parse_ranges "1-5:2, 7, 20-18" = some [1, 3, 5, 7, 20, 19, 18] ∧
    ∀ (spec : String) (vals : List ℤ), expandedVals spec = some vals →
      parse_ranges spec = some (dedupFirstSeen vals) ∧
      (dedupFirstSeen vals).Nodup ∧
      List.Sublist (dedupFirstSeen vals) vals ∧
      (∀ x : ℤ, x ∈ dedupFirstSeen vals ↔ x ∈ vals) ∧
      (∀ x y : ℤ, x ∈ dedupFirstSeen vals → y ∈ dedupFirstSeen vals →
        firstIdx x vals < firstIdx y vals →
        firstIdx x (dedupFirstSeen vals) < firstIdx y (dedupFirstSeen vals)) := by
  refine ⟨by decide, ?_⟩
  intro spec vals h
  refine ⟨?_, nodup_dedupGo vals [], sublist_dedupGo vals [],
    fun x => ?_, fun x y hx hy hlt => firstIdx_dedupGo vals [] x y hx hy hlt⟩
  · rw [parse_ranges, h]
    rfl
  · rw [dedupFirstSeen, mem_dedupGo]
    simp

/-- Witness for C2 at the claim's concrete input. -/
theorem parse_ranges_spec_witness :
    expandedVals "1-5:2, 7, 20-18" = some [1, 3, 5, 7, 20, 19, 18] ∧
    (parse_ranges "1-5:2, 7, 20-18" =
        some (dedupFirstSeen [1, 3, 5, 7, 20, 19, 18]) ∧
      (dedupFirstSeen [(1:ℤ), 3, 5, 7, 20, 19, 18]).Nodup ∧
      List.Sublist (dedupFirstSeen [1, 3, 5, 7, 20, 19, 18])
        [1, 3, 5, 7, 20, 19, 18] ∧
      (∀ x : ℤ, x ∈ dedupFirstSeen [1, 3, 5, 7, 20, 19, 18] ↔
        x ∈ [(1:ℤ), 3, 5, 7, 20, 19, 18]) ∧
      (∀ x y : ℤ, x ∈ dedupFirstSeen [1, 3, 5, 7, 20, 19, 18] →
        y ∈ dedupFirstSeen [1, 3, 5, 7, 20, 19, 18] →
        firstIdx x [1, 3, 5, 7, 20, 19, 18] < firstIdx y [1, 3, 5, 7, 20, 19, 18] →
        firstIdx x (dedupFirstSeen [1, 3, 5, 7, 20, 19, 18]) <
          firstIdx y (dedupFirstSeen [1, 3, 5, 7, 20, 19, 18]))) :=
  ⟨by decide,
   parse_ranges_spec.2 "1-5:2, 7, 20-18" [1, 3, 5, 7, 20, 19, 18] (by decide)⟩

theorem mapM_expandToken_isSome (l : List (List Char))
    (h : ∀ t ∈ l, (expandToken t).isSome) : (l.mapM expandToken).isSome := by
  induction l with
  | nil => rfl
  | cons t rest ih =>
    obtain ⟨v, hv⟩ := Option.isSome_iff_exists.mp (h t (List.mem_cons_self t rest))
    obtain ⟨vs, hvs⟩ := Option.isSome_iff_exists.mp
      (ih (fun u hu => h u (List.mem_cons_of_mem t hu)))
    rw [List.mapM_cons, hv, hvs]
    rfl

/-- C3 counterexample: parse_ranges raises an uncaught ValueError (modelled
as a none result) on the inputs a-b and 1-x that the claim says are
silently skipped, because the malformed range endpoints are fed to int()
outside any try block (corel.py lines 30-32). -/
theorem parse_ranges_raises_counterexample :
    parse_ranges "a-b" = none ∧ parse_ranges "1-x" = none := by
  exact ⟨by decide, by decide⟩

/-- C3 amended: parse_ranges is permissive only for tokens without a dash
(after the x-to-colon rewrite): such a token never raises, and when it does
not parse as an integer it is silently skipped, contributing nothing.  A
whole input raises nothing when every token's expansion succeeds; but a
dash-carrying token whose endpoints or step are not well-formed integers
raises out of parse_ranges (previous counterexample). -/
theorem parse_ranges_permissive_amended :
    (∀ p : List Char, ¬ (xReplace p).contains '-' = true →
      (expandToken p).isSome) ∧
    (∀ p : List Char, ¬ (xReplace p).contains '-' = true →
      parseIntPy (xReplace p) = none → expandToken p = some []) ∧
    (∀ (p : List Char) (v : ℤ), ¬ (xReplace p).contains '-' = true →
      parseIntPy (xReplace p) = some v → expandToken p = some [v]) ∧
    (∀ spec : String, (∀ t ∈ tokensOf spec, (expandToken t).isSome) →
      (parse_ranges spec).isSome) := by
  refine ⟨?_, ?_, ?_, ?_⟩
  · intro p hnd
    rw [expandToken, if_neg hnd]
    cases hp : parseIntPy (xReplace p) <;> simp
  · intro p hnd hp
    rw [expandToken, if_neg hnd, hp]
  · intro p v hnd hp
    rw [expandToken, if_neg hnd, hp]
  · intro spec h
    rw [parse_ranges, expandedVals]
    split
    · rfl
    · rw [Option.isSome_map', Option.isSome_map']
      exact mapM_expandToken_isSome (tokensOf spec) h

/-- Witness for C3's amended theorem: the dash-free token foo is skipped,
the dash-free token 12 parses, and an input of well-formed tokens returns
a value. -/
theorem parse_ranges_permissive_amended_witness :
    (¬ (xReplace ('f' :: 'o' :: 'o' :: [])).contains '-' = true ∧
      parseIntPy (xReplace ('f' :: 'o' :: 'o' :: [])) = none) ∧
    expandToken ('f' :: 'o' :: 'o' :: []) = some [] ∧
    (∀ t ∈ tokensOf "1-3, 9", (expandToken t).isSome) ∧
    (parse_ranges "1-3, 9").isSome :=
  ⟨⟨by decide, by decide⟩,
   parse_ranges_permissive_amended.2.1 ('f' :: 'o' :: 'o' :: [])
     (by decide) (by decide),
   by decide,
   parse_ranges_permissive_amended.2.2.2 "1-3, 9" (by decide)⟩

theorem fdiv2_facts (d : ℤ) (hd : 0 ≤ d) :
    0 ≤ pyFloorDiv d 2 ∧ pyFloorDiv d 2 ≤ d ∧
    0 ≤ d - 2 * pyFloorDiv d 2 ∧ d - 2 * pyFloorDiv d 2 ≤ 1 := by
  rw [pyFloorDiv, Int.fdiv_eq_ediv _ (by norm_num)]
  omega

theorem coverScale_ge (bgW bgH tw th : ℤ) (hbw : 1 ≤ bgW) (hbh : 1 ≤ bgH)
    (htw : 1 ≤ tw) (hth : 1 ≤ th) :
    tw ≤ (coverScaleDims bgW bgH tw th).1 ∧
    th ≤ (coverScaleDims bgW bgH tw th).2 := by
  have hbwq : (0:ℚ) < (bgW : ℚ) := by exact_mod_cast (by omega : (0:ℤ) < bgW)
  have hbhq : (0:ℚ) < (bgH : ℚ) := by exact_mod_cast (by omega : (0:ℤ) < bgH)
  have hthq : (0:ℚ) < (th : ℚ) := by exact_mod_cast (by omega : (0:ℤ) < th)
  rw [coverScaleDims]
  split
  · rename_i hr
    refine ⟨?_, le_refl th⟩
    apply le_pyRound
    rw [gt_iff_lt, div_lt_div_iff₀ hthq hbhq] at hr
    rw [mul_div_assoc', le_div_iff₀ hbhq]
    nlinarith
  · rename_i hr
    push_neg at hr
    refine ⟨le_refl tw, ?_⟩
    apply le_pyRound
    rw [div_le_div_iff₀ hbhq hthq] at hr
    rw [mul_div_assoc', le_div_iff₀ hbwq]
    nlinarith

/-- C5 amended: the cover branch always produces exactly the requested
(w, h) with a symmetric integer-truncated center crop on both axes (on each
axis the left/top trim is the floor-halved excess, so the two trims differ
by at most one pixel), and every output pixel is fully opaque provided the
source image is fully opaque.  For a source with transparency the alpha
channel is copied into the output, because the crop is pasted without a
mask (previous counterexample). -/
theorem cover_fit_opacity (bg : Img) (tw th : ℤ)
    (hbw : 1 ≤ bg.w) (hbh : 1 ≤ bg.h) (htw : 1 ≤ tw) (hth : 1 ≤ th)
    (hop : ∀ x y : ℤ, (bg.px x y).alpha = 255) :
    (coverFit bg tw th).w = tw ∧ (coverFit bg tw th).h = th ∧
    (0 ≤ (coverScaleDims bg.w bg.h tw th).1 - tw -
        2 * pyFloorDiv ((coverScaleDims bg.w bg.h tw th).1 - tw) 2 ∧
      (coverScaleDims bg.w bg.h tw th).1 - tw -
        2 * pyFloorDiv ((coverScaleDims bg.w bg.h tw th).1 - tw) 2 ≤ 1) ∧
    (0 ≤ (coverScaleDims bg.w bg.h tw th).2 - th -
        2 * pyFloorDiv ((coverScaleDims bg.w bg.h tw th).2 - th) 2 ∧
      (coverScaleDims bg.w bg.h tw th).2 - th -
        2 * pyFloorDiv ((coverScaleDims bg.w bg.h tw th).2 - th) 2 ≤ 1) ∧
    (∀ x y : ℤ, 0 ≤ x → x < tw → 0 ≤ y → y < th →
      ((coverFit bg tw th).px x y).alpha = 255) := by
  obtain ⟨hsw, hsh⟩ := coverScale_ge bg.w bg.h tw th hbw hbh htw hth
  obtain ⟨hL0, hL1, hL2, hL3⟩ :=
    fdiv2_facts ((coverScaleDims bg.w bg.h tw th).1 - tw) (by omega)
  obtain ⟨hT0, hT1, hT2, hT3⟩ :=
    fdiv2_facts ((coverScaleDims bg.w bg.h tw th).2 - th) (by omega)
  refine ⟨rfl, rfl, ⟨hL2, hL3⟩, ⟨hT2, hT3⟩, ?_⟩
  intro x y hx0 hx1 hy0 hy1
  simp only [coverFit, pasteAt, newCanvas, cropImg, resizeImg]
  rw [if_pos (by constructor <;> [omega; (constructor <;> [omega; omega])])]
  rw [if_pos (by refine ⟨by omega, by omega, by omega, by omega⟩)]
  exact hop _ _

/-- Witness for C5's amended theorem: a fully opaque 1 x 3 source (taller
than the 2 x 2 target, so the vertical-trim branch is the substantive one)
covered onto a 2 x 2 canvas is exactly 2 x 2, has a symmetric vertical
trim, and is opaque everywhere. -/
theorem cover_fit_opacity_witness :
    ((1:ℤ) ≤ (Img.mk 1 3 (fun _ _ => (9, 9, 9, 255))).w ∧
      (1:ℤ) ≤ (Img.mk 1 3 (fun _ _ => (9, 9, 9, 255))).h ∧
      (1:ℤ) ≤ 2 ∧ (1:ℤ) ≤ 2 ∧
      (∀ x y : ℤ, ((Img.mk 1 3 (fun _ _ => (9, 9, 9, 255))).px x y).alpha = 255)) ∧
    ((coverFit (Img.mk 1 3 (fun _ _ => (9, 9, 9, 255))) 2 2).w = 2 ∧
      (0 ≤ (coverScaleDims 1 3 2 2).2 - 2 -
          2 * pyFloorDiv ((coverScaleDims 1 3 2 2).2 - 2) 2 ∧
        (coverScaleDims 1 3 2 2).2 - 2 -
          2 * pyFloorDiv ((coverScaleDims 1 3 2 2).2 - 2) 2 ≤ 1) ∧
      ((coverFit (Img.mk 1 3 (fun _ _ => (9, 9, 9, 255))) 2 2).px 1 1).alpha = 255) := by
  refine ⟨⟨by norm_num, by norm_num, by norm_num, by norm_num,
    fun x y => rfl⟩, ?_, ?_, ?_⟩
  · exact (cover_fit_opacity (Img.mk 1 3 (fun _ _ => (9, 9, 9, 255))) 2 2
      (by norm_num) (by norm_num) (by norm_num) (by norm_num)
      (fun x y => rfl)).1
  · exact (cover_fit_opacity (Img.mk 1 3 (fun _ _ => (9, 9, 9, 255))) 2 2
      (by norm_num) (by norm_num) (by norm_num) (by norm_num)
      (fun x y => rfl)).2.2.2.1
  · exact (cover_fit_opacity (Img.mk 1 3 (fun _ _ => (9, 9, 9, 255))) 2 2
      (by norm_num) (by norm_num) (by norm_num) (by norm_num)
      (fun x y => rfl)).2.2.2.2 1 1 (by norm_num) (by norm_num)
      (by norm_num) (by norm_num)

/-- C5 counterexample: a fully transparent 2 x 2 RGBA source covered onto a
2 x 2 canvas yields a pixel with alpha 0, not 255 — the mask-less paste of
corel.py line 85 copies the source alpha over the opaque white canvas, so
the cover output is not always fully opaque when the source has
transparency. -/
theorem cover_fit_transparent_counterexample :
    (coverFit (Img.mk 2 2 (fun _ _ => (0, 0, 0, 0))) 2 2).w = 2 ∧
    (coverFit (Img.mk 2 2 (fun _ _ => (0, 0, 0, 0))) 2 2).h = 2 ∧
    ((coverFit (Img.mk 2 2 (fun _ _ => (0, 0, 0, 0))) 2 2).px 0 0).alpha = 0 := by
  have hcs : coverScaleDims 2 2 2 2 = (2, 2) := by
    rw [coverScaleDims, if_neg (by norm_num)]
    norm_num
    rw [pyRound]
    simp only [ratFloor_eq_intFloor]
    norm_num
  refine ⟨rfl, rfl, ?_⟩
  simp only [coverFit, hcs, pasteAt, newCanvas, cropImg, resizeImg, pyFloorDiv]
  norm_num
  rfl

theorem runGo_stop_allOk (saveOk : ℕ → Bool) (fname : ℤ → String) (N : ℕ)
    (hok : ∀ i, saveOk i = true) :
    ∀ (l : List ℤ) (p : ℕ), p ≤ N →
      runGo saveOk (some N) fname p l =
        (min (p + l.length) N, (l.take (N - p)).map fname, false) := by
  intro l
  induction l with
  | nil =>
    intro p hp
    rw [runGo]
    simp only [List.length_nil, List.take_nil, List.map_nil]
    rw [Nat.add_zero, min_eq_left hp]
  | cons v rest ih =>
    intro p hp
    rw [runGo]
    by_cases hpN : N ≤ p
    · have hstop : stopObserved (some N) p = true := by
        simp [stopObserved, hpN]
      rw [hstop]
      simp only [if_true]
      have hp' : p = N := by omega
      subst hp'
      simp only [Nat.sub_self, List.take_zero, List.map_nil]
      rw [min_eq_right (by omega)]
    · have hstop : stopObserved (some N) p = false := by
        simp [stopObserved]
        omega
      rw [hstop]
      simp only [Bool.false_eq_true, if_false]
      rw [hok p]
      simp only [if_true]
      rw [ih (p + 1) (by omega)]
      rw [show N - (p + 1) = N - p - 1 from by omega]
      rw [show (v :: rest).take (N - p) = v :: rest.take (N - p - 1) from by
        rw [show N - p = N - p - 1 + 1 from by omega, List.take_succ_cons,
          Nat.add_sub_cancel]]
      rw [List.map_cons]
      rw [show min (p + 1 + rest.length) N = min (p + (v :: rest).length) N from by
        rw [List.length_cons]
        omega]

theorem runGo_fail (saveOk : ℕ → Bool) (fname : ℤ → String) (K : ℕ)
    (hbefore : ∀ i, i < K → saveOk i = true) (hfail : saveOk K = false) :
    ∀ (l : List ℤ) (p : ℕ), p ≤ K → K < p + l.length →
      runGo saveOk none fname p l =
        (K, (l.take (K - p)).map fname, true) := by
  intro l
  induction l with
  | nil =>
    intro p hp hlen
    rw [List.length_nil] at hlen
    exact absurd hlen (by omega)
  | cons v rest ih =>
    intro p hp hlen
    rw [runGo]
    have hstop : stopObserved none p = false := rfl
    rw [hstop]
    simp only [Bool.false_eq_true, if_false]
    by_cases hpK : p = K
    · subst hpK
      rw [hfail]
      simp only [Bool.false_eq_true, if_false]
      simp only [Nat.sub_self, List.take_zero, List.map_nil]
    · rw [hbefore p (by omega)]
      simp only [if_true]
      rw [ih (p + 1) (by omega) (by rw [List.length_cons] at hlen; omega)]
      rw [show K - (p + 1) = K - p - 1 from by omega]
      rw [show (v :: rest).take (K - p) = v :: rest.take (K - p - 1) from by
        rw [show K - p = K - p - 1 + 1 from by omega, List.take_succ_cons,
          Nat.add_sub_cancel]]
      rw [List.map_cons]

/-- C6 counterexample: stopping after 1 of 3 values does produce exactly 1
file (and 3 without the stop), but the terminal signal after cancellation
is the very same done signal as after normal completion (corel.py line 130
runs in both cases), so the run does not terminate in a state distinct
from normal completion. -/
theorem cancel_terminal_counterexample :
    (workerRun "out" "created" "png" (fun _ => true) (some 1) [5, 6, 7]).terminal =
      (workerRun "out" "created" "png" (fun _ => true) none [5, 6, 7]).terminal ∧
    (workerRun "out" "created" "png" (fun _ => true) (some 1) [5, 6, 7]).files.length = 1 ∧
    (workerRun "out" "created" "png" (fun _ => true) none [5, 6, 7]).files.length = 3 := by
  refine ⟨rfl, by decide, by decide⟩

/-- C6 amended: when a stop is observed from the boundary before the
(N+1)-st value on (N < M, all saves succeeding), the run writes exactly N
files (in render order), the manifest has exactly one row per rendered
value — it exists only when N ≥ 1, since with zero rows no manifest file is
written — and the run then emits the same done terminal signal as normal
completion; cancellation is observable only through the log line and the
processed/total counts, not through a distinct terminal state.  The stop
flag is checked exactly once per value, at the boundary before rendering
(runGo's first test). -/
theorem cancellation_spec (folder base ext : String) (saveOk : ℕ → Bool)
    (values : List ℤ) (N : ℕ) (hN : N < values.length)
    (hok : ∀ i, saveOk i = true) :
    (workerRun folder base ext saveOk (some N) values).files =
      (values.take N).map (fun v => outPath folder base v ext) ∧
    (workerRun folder base ext saveOk (some N) values).files.length = N ∧
    (workerRun folder base ext saveOk (some N) values).manifest =
      (if N = 0 then none
       else some ((values.take N).map (fun v => (v, outName base v ext)))) ∧
    (workerRun folder base ext saveOk (some N) values).terminal = Terminal.done := by
  have hrun := runGo_stop_allOk saveOk (fun v => outPath folder base v ext) N hok
    values 0 (by omega)
  have hmin : min (0 + values.length) N = N := by omega
  rw [hmin] at hrun
  have hsub : N - 0 = N := by omega
  rw [hsub] at hrun
  simp only [workerRun, hrun]
  have hlen : ((values.take N).map (fun v => outPath folder base v ext)).length = N := by
    rw [List.length_map, List.length_take]
    omega
  refine ⟨rfl, hlen, ?_, rfl⟩
  show (if ((values.take N).map (fun v => (v, outName base v ext))).isEmpty = true
      then none
      else some ((values.take N).map (fun v => (v, outName base v ext)))) =
    (if N = 0 then none
     else some ((values.take N).map (fun v => (v, outName base v ext))))
  by_cases hN0 : N = 0
  · subst hN0
    simp
  · have hcond :
        ¬((values.take N).map (fun v => (v, outName base v ext))).isEmpty = true := by
      rw [List.isEmpty_iff]
      intro hcon
      have hlc := congrArg List.length hcon
      rw [List.length_map, List.length_take, List.length_nil] at hlc
      omega
    rw [if_neg hN0, if_neg hcond]

/-- Witness for C6: stop after 1 of the 3 values 5, 6, 7. -/
theorem cancellation_spec_witness :
    ((1:ℕ) < 3 ∧ (∀ i : ℕ, (fun _ : ℕ => true) i = true)) ∧
    ((workerRun "o" "b" "png" (fun _ => true) (some 1) [5, 6, 7]).files =
        [outPath "o" "b" 5 "png"] ∧
      (workerRun "o" "b" "png" (fun _ => true) (some 1) [5, 6, 7]).files.length = 1 ∧
      (workerRun "o" "b" "png" (fun _ => true) (some 1) [5, 6, 7]).manifest =
        some [(5, outName "b" 5 "png")] ∧
      (workerRun "o" "b" "png" (fun _ => true) (some 1) [5, 6, 7]).terminal =
        Terminal.done) :=
  ⟨⟨by decide, fun _ => rfl⟩,
   cancellation_spec "o" "b" "png" (fun _ => true) [5, 6, 7] 1 (by decide)
     (fun _ => rfl)⟩

/-- C10: when the save of the (K+1)-st value fails (all earlier saves
succeeding, no stop requested), the worker returns right after emitting the
error signal: no manifest is written at all — even though K values were
rendered — the terminal signal is error, not done, and the K files already
written remain (the model never deletes a written file; the files list
holds exactly the K earlier paths in render order). -/
theorem save_failure_spec (folder base ext : String) (saveOk : ℕ → Bool)
    (values : List ℤ) (K : ℕ) (hK : K < values.length)
    (hbefore : ∀ i, i < K → saveOk i = true) (hfail : saveOk K = false) :
    (workerRun folder base ext saveOk none values).manifest = none ∧
    (workerRun folder base ext saveOk none values).terminal = Terminal.error ∧
    (workerRun folder base ext saveOk none values).files =
      (values.take K).map (fun v => outPath folder base v ext) ∧
    (workerRun folder base ext saveOk none values).files.length = K := by
  have hrun := runGo_fail saveOk (fun v => outPath folder base v ext) K hbefore hfail
    values 0 (by omega) (by omega)
  have hsub : K - 0 = K := by omega
  rw [hsub] at hrun
  simp only [workerRun, hrun]
  refine ⟨rfl, rfl, rfl, ?_⟩
  show ((values.take K).map (fun v => outPath folder base v ext)).length = K
  rw [List.length_map, List.length_take]
  omega

/-- Witness for C10: the second save (index 1) of the values 5, 6, 7
fails; one file exists, no manifest, error terminal. -/
theorem save_failure_spec_witness :
    ((1:ℕ) < 3 ∧ (∀ i : ℕ, i < 1 → (decide (i = 0)) = true) ∧
      (decide ((1:ℕ) = 0)) = false) ∧
    ((workerRun "o" "b" "png" (fun i => decide (i = 0)) none [5, 6, 7]).manifest =
        none ∧
      (workerRun "o" "b" "png" (fun i => decide (i = 0)) none [5, 6, 7]).terminal =
        Terminal.error ∧
      (workerRun "o" "b" "png" (fun i => decide (i = 0)) none [5, 6, 7]).files =
        [outPath "o" "b" 5 "png"] ∧
      (workerRun "o" "b" "png" (fun i => decide (i = 0)) none [5, 6, 7]).files.length =
        1) :=
  ⟨⟨by decide, fun i hi => by
      have hi0 : i = 0 := by omega
      subst hi0
      rfl, by decide⟩,
   save_failure_spec "o" "b" "png" (fun i => decide (i = 0)) [5, 6, 7] 1
     (by decide)
     (fun i hi => by
       have hi0 : i = 0 := by omega
       subst hi0
       rfl)
     (by decide)⟩

end ImageCreator
